import Mathlib

/-!
# Verification of the OpenPNM `GenericTransport` core

Shallow embedding of `openpnm/algorithms/_generic_transport.py` over ℚ:

* the adjacency/Laplacian construction used by `_build_A`,
* the boundary-condition application `_apply_BCs` on matrix `A` and vector `b`,
* the boundary-condition store (`_set_BC`, `remove_BC`, `reset`),
* the settings validation `_validate_settings`,
* the flux evaluator `rate`.

Matrices are total functions `Nat → Nat → ℚ` together with a node count `np`;
sparse numpy arrays with NaN entries are `List (Option ℚ)` / `Nat → Option ℚ`
(`none` = NaN, `some v` = finite value `v`).
-/

namespace OpenPNM

/-- A throat: endpoint pair `(p0, p1)` (row of `throat.conns`) together with its
conductance (the entry of the weights array `g` aligned with that row). -/
abbrev Edge := (Nat × Nat) × ℚ

/-- Modelled from the spec: `network.create_adjacency_matrix(weights=g)` is not
under `src/`; per §4.1 it places each edge's weight symmetrically at `(i,j)` and
`(j,i)`.  `wsum es i j` is the resulting `(i,j)` entry (duplicate parallel edges
sum, as COO entries do). -/
def wsum (es : List Edge) (i j : Nat) : ℚ :=
  (es.map (fun e =>
    if (e.1.1 = i ∧ e.1.2 = j) ∨ (e.1.1 = j ∧ e.1.2 = i) then e.2 else 0)).sum

/-- Column sum of the symmetric adjacency matrix at node `i`: each edge touching
`i` contributes its weight once per incidence. -/
def degsum (es : List Edge) (i : Nat) : ℚ :=
  (es.map (fun e =>
    (if e.1.1 = i then e.2 else 0) + (if e.1.2 = i then e.2 else 0))).sum

/-- Embedding of `scipy.sparse.csgraph.laplacian` of the weighted adjacency matrix, as used by
`_build_A`: `L = D - W` with `D i = (column sum of W at i) - W i i`. -/
def lapA (es : List Edge) : Nat → Nat → ℚ :=
  fun i j => if i = j then degsum es i - wsum es i i else - wsum es i j

/-- Embedding of `self.A.diagonal().mean()` over an `np × np` matrix. -/
def meanDiag (np : Nat) (A : Nat → Nat → ℚ) : ℚ :=
  (∑ i in Finset.range np, A i i) / np

/-- The matrix part of `_apply_BCs`: entries whose row or column is a
value-BC node are zeroed, then the diagonal is rewritten (`setdiag`) with the
previous diagonal outside the BC nodes and `f = A.diagonal().mean()` on them. -/
def applyBCs_A (np : Nat) (A : Nat → Nat → ℚ) (bcv : Nat → Option ℚ) :
    Nat → Nat → ℚ :=
  fun i j =>
    if (bcv i).isSome ∨ (bcv j).isSome then
      if i = j then meanDiag np A else 0
    else A i j

/-- The RHS part of `_apply_BCs`, starting from the `_build_b` zero baseline:
`b[rate nodes] = rate`, then `b[value nodes] = value * f`, then
`b[~value nodes] -= (A @ x_BC)[~value nodes]` with `x_BC` the value-BC vector
padded with zeros. -/
def applyBCs_b (np : Nat) (A : Nat → Nat → ℚ) (bcr bcv : Nat → Option ℚ) :
    Nat → ℚ :=
  let b1 : Nat → ℚ := fun i => match bcr i with | some r => r | none => 0
  let f := meanDiag np A
  let b2 : Nat → ℚ := fun i => match bcv i with | some v => v * f | none => b1 i
  let xBC : Nat → ℚ := fun j => (bcv j).getD 0
  fun i =>
    if (bcv i).isSome then b2 i
    else b2 i - ∑ j in Finset.range np, A i j * xBC j

/-- Embedding of `_apply_BCs` acting on the freshly built system: the rate BCs touch only
`b`, the value BCs touch both `A` and `b`. -/
def applyBCs (np : Nat) (A : Nat → Nat → ℚ) (bcr bcv : Nat → Option ℚ) :
    (Nat → Nat → ℚ) × (Nat → ℚ) :=
  (applyBCs_A np A bcv, applyBCs_b np A bcr bcv)

/-! ## Boundary condition store (`_set_BC`, `remove_BC`, `reset`) -/

/-- The two BC kinds accepted by `_set_BC` (`bctype`). -/
inductive BCKind where
  | value
  | rate
deriving DecidableEq, Repr

/-- Embedding of the othertype computation in `_set_BC`: the `np.setdiff1d`
of the two kind names against `bctype`. -/
def BCKind.other : BCKind → BCKind
  | .value => .rate
  | .rate => .value

/-- The two update modes accepted by `_set_BC`. -/
inductive BCMode where
  | merge
  | overwrite
deriving DecidableEq, Repr

/-- The algorithm's BC storage: the arrays `pore.bc_value` and `pore.bc_rate`
(`none` = NaN = no BC on that pore). -/
structure BCState where
  val : List (Option ℚ)
  rat : List (Option ℚ)
deriving DecidableEq, Repr

/-- The array `pore.bc_{k}`. -/
def BCState.arr (s : BCState) : BCKind → List (Option ℚ)
  | .value => s.val
  | .rate => s.rat

/-- Replace the array `pore.bc_{k}`. -/
def BCState.setArr (s : BCState) : BCKind → List (Option ℚ) → BCState
  | .value, l => { s with val := l }
  | .rate, l => { s with rat := l }

/-- Embedding of the whole-array overwrite `self[f"pore.bc_..."] = np.nan`
performed first in overwrite mode. -/
def clearKind (s : BCState) (k : BCKind) : BCState :=
  s.setArr k (List.replicate (s.arr k).length none)

/-- numpy fancy assignment `a[ps] = x` of one element everywhere; writes
outside the array bounds cannot occur in the source (indices come from
`_parse_indices`), and `List.set` ignores them. -/
def setAll (l : List (Option ℚ)) (ps : List Nat) (x : Option ℚ) :
    List (Option ℚ) :=
  ps.foldl (fun acc p => acc.set p x) l

/-- numpy fancy assignment `a[ps] = v` with a broadcast scalar. -/
def assignScalar (l : List (Option ℚ)) (ps : List Nat) (v : ℚ) :
    List (Option ℚ) :=
  setAll l ps (some v)

/-- numpy fancy assignment `a[ps] = vs` with `vs.size = ps.size`, element by
element (duplicate indices: last write wins). -/
def assignVec (l : List (Option ℚ)) (ps : List Nat) (vs : List ℚ) :
    List (Option ℚ) :=
  (ps.zip vs).foldl (fun acc pv => acc.set pv.1 (some pv.2)) l

/-- Outcome of a `_set_BC` call. -/
structure SetBCResult where
  state : BCState
  /-- the pores named in the "these will be skipped" logger warning -/
  skipped : List Nat
  /-- Flag set to `true` when the call raised an exception -/
  raised : Bool
deriving DecidableEq, Repr

/-- The conflict scan of `_set_BC`:
`pores[np.isfinite(self[f"pore.bc_{othertype}"])[pores]]`. -/
def conflictPores (s1 : BCState) (pores : List Nat) (k : BCKind) : List Nat :=
  pores.filter (fun p => ((s1.arr k.other).getD p none).isSome)

/-- The pores that survive the conflict scan: `np.setdiff1d(pores, inds)` when
`inds` is non-empty (which also sorts; with a conflict present the vector
write always fails on size, so the order is unobservable), otherwise the
given pores unchanged. -/
def survivingPores (pores inds : List Nat) : List Nat :=
  if inds.isEmpty then pores else pores.dedup.filter (fun p => ¬ p ∈ inds)

/-- Embedding of `_set_BC(pores, bctype, bcvalues, mode)`.  `vals` is the flattened
`np.array(bcvalues)` (a scalar becomes a one-element list; a one-element array
broadcasts the same way).  Mirrors the source step by step: the size guard
against the *given* `pores`, the overwrite-mode clearing, the conflict scan
against the opposite kind, `np.setdiff1d` dropping the conflicting pores
(`setdiff1d` additionally sorts; with a conflict present the vector write
always fails on size, so the order is unobservable), and finally the numpy
fancy write, which raises a shape-mismatch error when the value vector no
longer matches the surviving pores. -/
def setBCwrite (s1 : BCState) (pores : List Nat) (k : BCKind)
    (vals : List ℚ) : SetBCResult :=
  if vals.length = 1 then
    ⟨s1.setArr k (assignScalar (s1.arr k)
        (survivingPores pores (conflictPores s1 pores k)) (vals.headD 0)),
      conflictPores s1 pores k, false⟩
  else if vals.length = (survivingPores pores (conflictPores s1 pores k)).length then
    ⟨s1.setArr k (assignVec (s1.arr k)
        (survivingPores pores (conflictPores s1 pores k)) vals),
      conflictPores s1 pores k, false⟩
  else
    ⟨s1, conflictPores s1 pores k, true⟩

def setBC (s : BCState) (pores : List Nat) (k : BCKind) (vals : List ℚ)
    (mode : BCMode) : SetBCResult :=
  if vals.length > 1 ∧ vals.length ≠ pores.length then
    ⟨s, [], true⟩
  else
    setBCwrite (if mode = .overwrite then clearKind s k else s) pores k vals

/-- Embedding of `remove_BC(pores, bctype)` after its `bctype` normalisation: `kinds` is
both kinds for the `all` option, and `pores = none` selects every pore
(`self.Ps`). -/
def removeBC (s : BCState) (pores : Option (List Nat)) (kinds : List BCKind) :
    BCState :=
  let ps := pores.getD (List.range s.val.length)
  let s1 := if BCKind.value ∈ kinds then
    s.setArr .value (setAll s.val ps none) else s
  if BCKind.rate ∈ kinds then
    s1.setArr .rate (setAll s1.rat ps none) else s1

/-- The BC part of `reset(bcs=...)`: with `bcs=True` both arrays are reset to
all-NaN. -/
def resetBC (s : BCState) (bcs : Bool) : BCState :=
  if bcs then
    ⟨List.replicate s.val.length none, List.replicate s.rat.length none⟩
  else s

/-- The store created by `__init__`: both arrays all-NaN over `np` pores. -/
def initBC (np : Nat) : BCState :=
  ⟨List.replicate np none, List.replicate np none⟩

/-- States of the BC store reachable through the public operations. -/
inductive ReachableBC : BCState → Prop where
  | init (np : Nat) : ReachableBC (initBC np)
  | set (s : BCState) (pores : List Nat) (k : BCKind) (vals : List ℚ)
      (mode : BCMode) : ReachableBC s → ReachableBC (setBC s pores k vals mode).state
  | remove (s : BCState) (pores : Option (List Nat)) (kinds : List BCKind) :
      ReachableBC s → ReachableBC (removeBC s pores kinds)
  | reset (s : BCState) (b : Bool) : ReachableBC s → ReachableBC (resetBC s b)

/-- Invariant that a node holds at most one kind at a time: no pore has both a finite value
BC and a finite rate BC. -/
def NoDouble (s : BCState) : Prop :=
  ∀ i, ¬(((s.val.getD i none).isSome = true) ∧ ((s.rat.getD i none).isSome = true))

/-! ## Settings validation (`_validate_settings`, `GenericTransportSettings`) -/

/-- The three settings `run` depends on.  Fields are `Option String`: `none` is
Python `None`, `some ""` is the class-body default empty string. -/
structure TransportSettings where
  phase : Option String
  quantity : Option String
  conductance : Option String
deriving DecidableEq, Repr

/-- The class-body defaults of `GenericTransportSettings`:
phase, quantity and conductance all set to empty strings, not `None`. -/
def defaultTransportSettings : TransportSettings :=
  ⟨some "", some "", some ""⟩

/-- Embedding of `_validate_settings`: raises iff one of the three settings `is None`. -/
def validate_settings (s : TransportSettings) : Except String Unit :=
  if s.quantity = none then
    .error "quantity has not been defined on this algorithm"
  else if s.conductance = none then
    .error "conductance has not been defined on this algorithm"
  else if s.phase = none then
    .error "phase has not been defined on this algorithm"
  else .ok ()

/-! ## Rate evaluator (`rate`) -/

/-- The two `mode` options of `rate`. -/
inductive RateMode where
  | group
  | single
deriving DecidableEq, Repr

/-- The per-edge quantity `Qt = np.diff(g*X12, axis=1)` after the conductance
has been tiled to both directions and flipped: `g*x[p1] - g*x[p0]`. -/
def edgeQt (x : Nat → ℚ) (e : Edge) : ℚ :=
  e.2 * x e.1.2 - e.2 * x e.1.1

/-- The pore balance `Qp` built by `np.add.at(Qp, P12[:,0], -Qt)` and
`np.add.at(Qp, P12[:,1], Qt)`. -/
def poreQp (es : List Edge) (x : Nat → ℚ) (i : Nat) : ℚ :=
  (es.map (fun e =>
    (if e.1.1 = i then -(edgeQt x e) else 0)
      + (if e.1.2 = i then edgeQt x e else 0))).sum

/-- Embedding of `rate(pores, throats, mode)` over the solved field `x`, with the edge list
and the per-edge conductance zipped into `es` (the `g.size == Nt` broadcast
path of the source).  Only the two argument checks can raise. -/
def rate (es : List Edge) (x : Nat → ℚ) (pores throats : List Nat)
    (mode : RateMode) : Except String (List ℚ) :=
  if throats ≠ [] ∧ pores ≠ [] then
    .error "Must specify either pores or throats, not both"
  else if throats = [] ∧ pores = [] then
    .error "Must specify either pores or throats"
  else if throats ≠ [] then
    let Qt := es.map (edgeQt x)
    let R := throats.map (fun t => |Qt.getD t 0|)
    .ok (match mode with | .group => [R.sum] | .single => R)
  else
    let R := pores.map (poreQp es x)
    .ok (match mode with | .group => [R.sum] | .single => R)

/-- Helper predicate: `np.array(R, ndmin=1)` never returns below dimension 1, so the result of a
successful `rate` call is the list itself. -/
def exceptOk {ε α : Type} : Except ε α → Bool
  | .ok _ => true
  | .error _ => false

/-! ## Laplacian structure lemmas -/

theorem wsum_symm (es : List Edge) (i j : Nat) : wsum es i j = wsum es j i :=
  congrArg List.sum
    (congrArg (fun f => List.map f es) (funext fun _ => if_congr or_comm rfl rfl))

theorem wsum_self (es : List Edge) (hloop : ∀ e ∈ es, e.1.1 ≠ e.1.2)
    (i : Nat) : wsum es i i = 0 := by
  induction es with
  | nil => simp [wsum]
  | cons e es ih =>
    have he := hloop e (List.mem_cons_self e es)
    have hrest : ∀ e' ∈ es, e'.1.1 ≠ e'.1.2 :=
      fun e' h => hloop e' (List.mem_cons_of_mem e h)
    have hcond : ¬((e.1.1 = i ∧ e.1.2 = i) ∨ (e.1.1 = i ∧ e.1.2 = i)) := by
      rintro (⟨h1, h2⟩ | ⟨h1, h2⟩) <;> exact he (h1.trans h2.symm)
    simp only [wsum, List.map_cons, List.sum_cons] at ih ⊢
    rw [if_neg hcond, ih hrest, add_zero]

theorem wsum_nonneg (es : List Edge) (hpos : ∀ e ∈ es, 0 ≤ e.2) (i j : Nat) :
    0 ≤ wsum es i j := by
  apply List.sum_nonneg
  intro q hq
  obtain ⟨e, he, rfl⟩ := List.mem_map.mp hq
  split
  · exact hpos e he
  · exact le_refl 0

/-- Summing one symmetrically-placed edge weight over all columns `j ≠ i`
recovers the edge's incidence contribution at row `i`. -/
theorem single_edge_row_sum (np a b : Nat) (w : ℚ) (ha : a < np) (hb : b < np)
    (hab : a ≠ b) (i : Nat) :
    (∑ j in (Finset.range np).erase i,
        if (a = i ∧ b = j) ∨ (a = j ∧ b = i) then w else 0)
      = (if a = i then w else 0) + (if b = i then w else 0) := by
  by_cases hai : a = i
  · subst hai
    have hstep : ∀ j ∈ (Finset.range np).erase a,
        (if (a = a ∧ b = j) ∨ (a = j ∧ b = a) then w else 0)
          = (if j = b then w else 0) := by
      intro j hj
      have hja : j ≠ a := (Finset.mem_erase.mp hj).1
      refine if_congr ?_ rfl rfl
      constructor
      · rintro (⟨-, h⟩ | ⟨h1, -⟩)
        · exact h.symm
        · exact absurd h1.symm hja
      · intro h
        exact Or.inl ⟨rfl, h.symm⟩
    rw [Finset.sum_congr rfl hstep, Finset.sum_ite_eq' ((Finset.range np).erase a) b]
    have hbmem : b ∈ (Finset.range np).erase a :=
      Finset.mem_erase.mpr ⟨Ne.symm hab, Finset.mem_range.mpr hb⟩
    rw [if_pos hbmem, if_pos rfl, if_neg (Ne.symm hab), add_zero]
  · by_cases hbi : b = i
    · subst hbi
      have hstep : ∀ j ∈ (Finset.range np).erase b,
          (if (a = b ∧ b = j) ∨ (a = j ∧ b = b) then w else 0)
            = (if j = a then w else 0) := by
        intro j hj
        refine if_congr ?_ rfl rfl
        constructor
        · rintro (⟨h1, -⟩ | ⟨h1, -⟩)
          · exact absurd h1 hai
          · exact h1.symm
        · intro h
          exact Or.inr ⟨h.symm, rfl⟩
      rw [Finset.sum_congr rfl hstep, Finset.sum_ite_eq' ((Finset.range np).erase b) a]
      have hamem : a ∈ (Finset.range np).erase b :=
        Finset.mem_erase.mpr ⟨hai, Finset.mem_range.mpr ha⟩
      rw [if_pos hamem, if_neg hai, if_pos rfl, zero_add]
    · have hstep : ∀ j ∈ (Finset.range np).erase i,
          (if (a = i ∧ b = j) ∨ (a = j ∧ b = i) then w else 0) = 0 := by
        intro j _
        refine if_neg ?_
        rintro (⟨h1, -⟩ | ⟨-, h2⟩)
        · exact hai h1
        · exact hbi h2
      rw [Finset.sum_congr rfl hstep, Finset.sum_const_zero, if_neg hai,
        if_neg hbi, add_zero]

/-- With in-range endpoints and no self-loops, the incidence degree equals the
off-diagonal row sum of the adjacency matrix. -/
theorem degsum_eq (es : List Edge) (np : Nat)
    (hrange : ∀ e ∈ es, e.1.1 < np ∧ e.1.2 < np)
    (hloop : ∀ e ∈ es, e.1.1 ≠ e.1.2) (i : Nat) :
    degsum es i = ∑ j in (Finset.range np).erase i, wsum es i j := by
  induction es with
  | nil => simp [degsum, wsum]
  | cons e es ih =>
    have he := hrange e (List.mem_cons_self e es)
    have hel := hloop e (List.mem_cons_self e es)
    have hr : ∀ e' ∈ es, e'.1.1 < np ∧ e'.1.2 < np :=
      fun e' h => hrange e' (List.mem_cons_of_mem e h)
    have hl : ∀ e' ∈ es, e'.1.1 ≠ e'.1.2 :=
      fun e' h => hloop e' (List.mem_cons_of_mem e h)
    have hsplit : ∀ j, wsum (e :: es) i j
        = (if (e.1.1 = i ∧ e.1.2 = j) ∨ (e.1.1 = j ∧ e.1.2 = i) then e.2 else 0)
          + wsum es i j := by
      intro j
      simp [wsum]
    simp only [degsum, List.map_cons, List.sum_cons] at ih ⊢
    rw [Finset.sum_congr rfl (fun j _ => hsplit j), Finset.sum_add_distrib,
      ← ih hr hl, single_edge_row_sum np e.1.1 e.1.2 e.2 he.1 he.2 hel i]

/-- C9: for every valid edge list (in-range endpoints, no self-loops) and
non-negative edge weights, the pre-BC matrix built by `_build_A` (the Laplacian
of the symmetric weighted adjacency matrix) has every row summing to zero, and
each diagonal entry equals the sum of the magnitudes of the off-diagonal
entries in its row. -/
theorem C9_laplacian_rows (es : List Edge) (np : Nat)
    (hrange : ∀ e ∈ es, e.1.1 < np ∧ e.1.2 < np)
    (hloop : ∀ e ∈ es, e.1.1 ≠ e.1.2)
    (hpos : ∀ e ∈ es, 0 ≤ e.2) :
    ∀ i, i < np →
      (∑ j in Finset.range np, lapA es i j) = 0 ∧
      lapA es i i = ∑ j in (Finset.range np).erase i, |lapA es i j| := by
  intro i hi
  have h1 : lapA es i i = ∑ j in (Finset.range np).erase i, wsum es i j := by
    show (if i = i then degsum es i - wsum es i i else - wsum es i i) = _
    rw [if_pos rfl, wsum_self es hloop i, sub_zero, degsum_eq es np hrange hloop i]
  have hoff : ∀ j ∈ (Finset.range np).erase i, lapA es i j = - wsum es i j := by
    intro j hj
    have hji : j ≠ i := (Finset.mem_erase.mp hj).1
    show (if i = j then _ else - wsum es i j) = _
    rw [if_neg (Ne.symm hji)]
  constructor
  · rw [← Finset.add_sum_erase (Finset.range np) (lapA es i) (Finset.mem_range.mpr hi),
      Finset.sum_congr rfl hoff, h1, Finset.sum_neg_distrib, add_neg_cancel]
  · rw [h1]
    refine Finset.sum_congr rfl fun j hj => ?_
    rw [hoff j hj, abs_neg, abs_of_nonneg (wsum_nonneg es hpos i j)]

/-- Witness for C9 at the two-node network with a single edge of weight 2. -/
theorem C9_laplacian_rows_witness :
    (∑ j in Finset.range 2, lapA [((0, 1), 2)] 0 j) = 0 ∧
    lapA [((0, 1), 2)] 0 0 = ∑ j in (Finset.range 2).erase 0, |lapA [((0, 1), 2)] 0 j| :=
  C9_laplacian_rows [((0, 1), 2)] 2 (by decide) (by decide) (by decide) 0 (by decide)

theorem lapA_symm (es : List Edge) (i j : Nat) : lapA es i j = lapA es j i := by
  unfold lapA
  by_cases h : i = j
  · subst h
    rfl
  · rw [if_neg h, if_neg (Ne.symm h), wsum_symm]

/-- C1: for every network, conductance array and combination of value/rate BCs,
the matrix produced by `_apply_BCs` is symmetric; its entries outside the
value-BC rows and columns are unchanged from the pre-BC Laplacian (stated off
the diagonal, as the claim asserts); the value-BC rows and columns are zeroed
off the diagonal; and the value-BC diagonal entries equal
`f = A.diagonal().mean()` of the pre-BC matrix. -/
theorem C1_applyBCs_matrix (es : List Edge) (np : Nat) (bcr bcv : Nat → Option ℚ) :
    (∀ i j, (applyBCs np (lapA es) bcr bcv).1 i j = (applyBCs np (lapA es) bcr bcv).1 j i) ∧
    (∀ i j, i ≠ j → bcv i = none → bcv j = none →
      (applyBCs np (lapA es) bcr bcv).1 i j = lapA es i j) ∧
    (∀ i j, i ≠ j → ((bcv i).isSome = true ∨ (bcv j).isSome = true) →
      (applyBCs np (lapA es) bcr bcv).1 i j = 0) ∧
    (∀ i, (bcv i).isSome = true →
      (applyBCs np (lapA es) bcr bcv).1 i i = meanDiag np (lapA es)) := by
  refine ⟨?_, ?_, ?_, ?_⟩
  · intro i j
    show (if (bcv i).isSome = true ∨ (bcv j).isSome = true then
        if i = j then meanDiag np (lapA es) else 0 else lapA es i j)
      = (if (bcv j).isSome = true ∨ (bcv i).isSome = true then
        if j = i then meanDiag np (lapA es) else 0 else lapA es j i)
    rw [lapA_symm es i j]
    exact if_congr or_comm (if_congr eq_comm rfl rfl) rfl
  · intro i j _ hvi hvj
    show (if (bcv i).isSome = true ∨ (bcv j).isSome = true then _ else lapA es i j) = _
    rw [if_neg]
    rw [hvi, hvj]
    simp
  · intro i j hij hbc
    show (if (bcv i).isSome = true ∨ (bcv j).isSome = true then
        if i = j then meanDiag np (lapA es) else 0 else lapA es i j) = 0
    rw [if_pos hbc, if_neg hij]
  · intro i hbc
    show (if (bcv i).isSome = true ∨ (bcv i).isSome = true then
        if i = i then meanDiag np (lapA es) else 0 else lapA es i i) = _
    rw [if_pos (Or.inl hbc), if_pos rfl]

/-- Witness for C1 at a two-node network with a value BC on node 1 and a rate
BC on node 0: the off-diagonal entry of the BC row is zeroed and the BC
diagonal entry equals the pre-BC diagonal mean. -/
theorem C1_applyBCs_matrix_witness :
    (applyBCs 2 (lapA [((0, 1), 1)]) (fun i => if i = 0 then some 5 else none)
      (fun i => if i = 1 then some 2 else none)).1 0 1 = 0 ∧
    (applyBCs 2 (lapA [((0, 1), 1)]) (fun i => if i = 0 then some 5 else none)
      (fun i => if i = 1 then some 2 else none)).1 1 1
        = meanDiag 2 (lapA [((0, 1), 1)]) :=
  ⟨(C1_applyBCs_matrix [((0, 1), 1)] 2 (fun i => if i = 0 then some 5 else none)
      (fun i => if i = 1 then some 2 else none)).2.2.1 0 1 (by decide)
        (Or.inr (by decide)),
   (C1_applyBCs_matrix [((0, 1), 1)] 2 (fun i => if i = 0 then some 5 else none)
      (fun i => if i = 1 then some 2 else none)).2.2.2 1 (by decide)⟩

/-- The RHS exactly as claim C2 words it: rate-BC nodes keep `b = rate`,
value-BC nodes get `value·f`, and only nodes carrying *no* BC at all receive
the value-column correction. -/
def claimB (np : Nat) (A : Nat → Nat → ℚ) (bcr bcv : Nat → Option ℚ) :
    Nat → ℚ :=
  fun i =>
    if (bcv i).isSome then (bcv i).getD 0 * meanDiag np A
    else if (bcr i).isSome then (bcr i).getD 0
    else 0 - ∑ j in Finset.range np, A i j * (bcv j).getD 0

/-- C2 counterexample: on the two-node network with unit conductance, a rate BC
of 5 on node 0 and a value BC of 2 on the adjacent node 1, the code subtracts
the value-BC column from the rate-BC node too (`b[0] = 5 - (-1)·2 = 7`), while
the claim's construction leaves `b[0] = 5`. -/
theorem C2_rhs_counterexample :
    applyBCs_b 2 (lapA [((0, 1), 1)])
        (fun i => if i = 0 then some 5 else none)
        (fun i => if i = 1 then some 2 else none) 0 = 7 ∧
    claimB 2 (lapA [((0, 1), 1)])
        (fun i => if i = 0 then some 5 else none)
        (fun i => if i = 1 then some 2 else none) 0 = 5 := by
  constructor <;>
    · simp [applyBCs_b, claimB, meanDiag, lapA, wsum, degsum,
        Finset.sum_range_succ]
      try norm_num

/-- The RHS with C2's amendment: the value-column correction applies to every
node without a *value* BC, rate-BC nodes included. -/
def amendedB (np : Nat) (A : Nat → Nat → ℚ) (bcr bcv : Nat → Option ℚ) :
    Nat → ℚ :=
  fun i =>
    if (bcv i).isSome then (bcv i).getD 0 * meanDiag np A
    else (if (bcr i).isSome then (bcr i).getD 0 else 0)
      - ∑ j in Finset.range np, A i j * (bcv j).getD 0

/-- C2 (amended): `_apply_BCs` builds `b` from the zero baseline by writing the
rate values, overwriting value-BC nodes with `value·f`, and subtracting the
value-BC column contribution at every node that has no value BC (including
rate-BC nodes). -/
theorem C2_rhs_amended (np : Nat) (A : Nat → Nat → ℚ)
    (bcr bcv : Nat → Option ℚ) :
    applyBCs_b np A bcr bcv = amendedB np A bcr bcv := by
  funext i
  simp only [applyBCs_b, amendedB]
  cases hv : bcv i with
  | some v => simp [hv]
  | none => cases hr : bcr i <;> simp [hv, hr]

/-! ## BC store invariant (C3) -/

theorem getD_set (l : List (Option ℚ)) (p i : Nat) (x : Option ℚ) :
    (l.set p x).getD i none
      = if p = i ∧ p < l.length then x else l.getD i none := by
  induction l generalizing p i with
  | nil => simp
  | cons a as ih =>
    cases p with
    | zero =>
      cases i with
      | zero => simp
      | succ j => simp
    | succ q =>
      cases i with
      | zero => simp
      | succ j =>
        show (as.set q x).getD j none
          = if q + 1 = j + 1 ∧ q + 1 < as.length + 1 then x else as.getD j none
        rw [ih q j]
        exact if_congr (by omega) rfl rfl

theorem setAll_cons (l : List (Option ℚ)) (p : Nat) (ps : List Nat)
    (x : Option ℚ) : setAll l (p :: ps) x = setAll (l.set p x) ps x := rfl

theorem setAll_getD (ps : List Nat) (l : List (Option ℚ)) (x : Option ℚ)
    (i : Nat) :
    (setAll l ps x).getD i none
      = if i ∈ ps ∧ i < l.length then x else l.getD i none := by
  induction ps generalizing l with
  | nil => simp [setAll]
  | cons p ps ih =>
    rw [setAll_cons, ih, List.length_set]
    by_cases hps : i ∈ ps ∧ i < l.length
    · rw [if_pos hps, if_pos ⟨List.mem_cons_of_mem p hps.1, hps.2⟩]
    · rw [if_neg hps, getD_set]
      by_cases hpi : p = i ∧ p < l.length
      · rw [if_pos hpi]
        have : i ∈ p :: ps := hpi.1 ▸ List.mem_cons_self p ps
        rw [if_pos ⟨this, hpi.1 ▸ hpi.2⟩]
      · rw [if_neg hpi]
        by_cases hi : i ∈ p :: ps ∧ i < l.length
        · exfalso
          rcases List.mem_cons.mp hi.1 with hh | hh
          · exact hpi ⟨hh.symm, hh ▸ hi.2⟩
          · exact hps ⟨hh, hi.2⟩
        · rw [if_neg hi]

theorem assignVec_getD_not_mem (ps : List Nat) (vs : List ℚ)
    (l : List (Option ℚ)) (i : Nat) (h : i ∉ ps) :
    (assignVec l ps vs).getD i none = l.getD i none := by
  induction ps generalizing vs l with
  | nil => rfl
  | cons p ps ih =>
    cases vs with
    | nil => rfl
    | cons v vs =>
      have h1 : i ∉ ps := fun hh => h (List.mem_cons_of_mem p hh)
      have h2 : p ≠ i := fun hh => h (hh ▸ List.mem_cons_self p ps)
      show (assignVec (l.set p (some v)) ps vs).getD i none = _
      rw [ih vs _ h1, getD_set, if_neg (fun hc => h2 hc.1)]

theorem getD_replicate_none (n i : Nat) :
    ((List.replicate n (none : Option ℚ)).getD i none) = none := by
  induction n generalizing i with
  | zero => rfl
  | succ m ih =>
    cases i with
    | zero => rfl
    | succ j => exact ih j

theorem arr_setArr_self (s : BCState) (k : BCKind) (l : List (Option ℚ)) :
    (s.setArr k l).arr k = l := by
  cases k <;> rfl

theorem arr_setArr_other (s : BCState) (k : BCKind) (l : List (Option ℚ)) :
    (s.setArr k l).arr k.other = s.arr k.other := by
  cases k <;> rfl

theorem noDouble_arr (s : BCState) (h : NoDouble s) (k : BCKind) (i : Nat) :
    ¬(((s.arr k).getD i none).isSome = true
      ∧ ((s.arr k.other).getD i none).isSome = true) := by
  cases k
  · exact h i
  · exact fun hh => h i ⟨hh.2, hh.1⟩

theorem noDouble_of_arrK (s : BCState) (k : BCKind)
    (h : ∀ i, ¬(((s.arr k).getD i none).isSome = true
      ∧ ((s.arr k.other).getD i none).isSome = true)) :
    NoDouble s := by
  cases k
  · exact h
  · exact fun i hh => h i ⟨hh.2, hh.1⟩

/-- Pores that survive the conflict scan carry no BC of the opposite kind. -/
theorem surviving_no_conflict (s1 : BCState) (pores : List Nat) (k : BCKind)
    (p : Nat) (hp : p ∈ survivingPores pores (conflictPores s1 pores k)) :
    ((s1.arr k.other).getD p none).isSome = false := by
  cases hmem : ((s1.arr k.other).getD p none).isSome with
  | false => rfl
  | true =>
    exfalso
    unfold survivingPores at hp
    by_cases he : (conflictPores s1 pores k).isEmpty
    · rw [if_pos he] at hp
      have : p ∈ conflictPores s1 pores k :=
        List.mem_filter.mpr ⟨hp, hmem⟩
      rw [List.isEmpty_iff.mp he] at this
      exact List.not_mem_nil p this
    · rw [if_neg he] at hp
      have hmf := List.mem_filter.mp hp
      have hnotin : ¬ p ∈ conflictPores s1 pores k :=
        of_decide_eq_true hmf.2
      exact hnotin (List.mem_filter.mpr ⟨List.mem_dedup.mp hmf.1, hmem⟩)

/-- Writing a new array for kind `k` whose finite entries are either old
finite entries or lie where the opposite kind is NaN preserves the invariant. -/
theorem noDouble_write (s1 : BCState) (k : BCKind) (newl : List (Option ℚ))
    (h1 : NoDouble s1)
    (hsupp : ∀ i, (newl.getD i none).isSome = true →
      ((s1.arr k).getD i none).isSome = true
        ∨ ((s1.arr k.other).getD i none).isSome = false) :
    NoDouble (s1.setArr k newl) := by
  apply noDouble_of_arrK _ k
  intro i hh
  rw [arr_setArr_self] at hh
  rw [arr_setArr_other] at hh
  rcases hsupp i hh.1 with hold | hnone
  · exact noDouble_arr s1 h1 k i ⟨hold, hh.2⟩
  · rw [hh.2] at hnone
    cases hnone

theorem clearKind_noDouble (s : BCState) (k : BCKind) :
    NoDouble (clearKind s k) := by
  apply noDouble_of_arrK _ k
  intro i hh
  have := hh.1
  rw [clearKind, arr_setArr_self, getD_replicate_none] at this
  cases this

theorem clearKind_arr_other (s : BCState) (k : BCKind) :
    (clearKind s k).arr k.other = s.arr k.other := arr_setArr_other s k _

/-- Lemma: `_set_BC` preserves the at-most-one-kind invariant in every mode, along
every path including the error paths. -/
theorem setBCwrite_noDouble (s1 : BCState) (pores : List Nat) (k : BCKind)
    (vals : List ℚ) (h : NoDouble s1) :
    NoDouble (setBCwrite s1 pores k vals).state := by
  unfold setBCwrite
  split
  · refine noDouble_write s1 k _ h ?_
    intro i hi
    rw [assignScalar, setAll_getD] at hi
    split at hi
    · rename_i hin
      exact Or.inr (surviving_no_conflict s1 pores k i hin.1)
    · exact Or.inl hi
  · split
    · refine noDouble_write s1 k _ h ?_
      intro i hi
      by_cases hin : i ∈ survivingPores pores (conflictPores s1 pores k)
      · exact Or.inr (surviving_no_conflict s1 pores k i hin)
      · rw [assignVec_getD_not_mem _ _ _ _ hin] at hi
        exact Or.inl hi
    · exact h

theorem setBC_noDouble (s : BCState) (pores : List Nat) (k : BCKind)
    (vals : List ℚ) (mode : BCMode) (h : NoDouble s) :
    NoDouble (setBC s pores k vals mode).state := by
  unfold setBC
  split
  · exact h
  · refine setBCwrite_noDouble _ pores k vals ?_
    split
    · exact clearKind_noDouble s k
    · exact h

theorem setAll_none_getD_isSome (ps : List Nat) (l : List (Option ℚ)) (i : Nat)
    (h : ((setAll l ps none).getD i none).isSome = true) :
    (l.getD i none).isSome = true := by
  rw [setAll_getD] at h
  split at h
  · cases h
  · exact h

/-- Lemma: `remove_BC` only erases entries, so it preserves the invariant. -/
theorem removeBC_noDouble (s : BCState) (pores : Option (List Nat))
    (kinds : List BCKind) (h : NoDouble s) :
    NoDouble (removeBC s pores kinds) := by
  unfold removeBC
  intro i hh
  set ps := pores.getD (List.range s.val.length) with hps
  have hval : ∀ t : BCState, t.val = s.val ∨ t.val = setAll s.val ps none →
      (t.val.getD i none).isSome = true → (s.val.getD i none).isSome = true := by
    rintro t (ht | ht) hsome
    · rwa [ht] at hsome
    · rw [ht] at hsome
      exact setAll_none_getD_isSome _ _ _ hsome
  split at hh <;> split at hh <;>
    · obtain ⟨h1, h2⟩ := hh
      refine h i ⟨?_, ?_⟩ <;>
        first
          | (exact setAll_none_getD_isSome _ _ _ (by simpa using h1))
          | (exact setAll_none_getD_isSome _ _ _ (by simpa using h2))
          | simpa using h1
          | simpa using h2

theorem resetBC_noDouble (s : BCState) (b : Bool) (h : NoDouble s) :
    NoDouble (resetBC s b) := by
  unfold resetBC
  split
  · intro i hh
    rw [getD_replicate_none] at hh
    cases hh.1
  · exact h

theorem initBC_noDouble (np : Nat) : NoDouble (initBC np) := by
  intro i hh
  rw [initBC] at hh
  rw [getD_replicate_none] at hh
  cases hh.1

/-- C3: the "at most one BC kind per node" invariant holds in the initial
all-NaN store and is preserved by `set_value_BC`/`set_rate_BC` (through
`_set_BC` in merge and overwrite mode), `remove_BC` and `reset`: no reachable
store has both a finite value BC and a finite rate BC on one pore. -/
theorem C3_noDouble_invariant (s : BCState) (h : ReachableBC s) : NoDouble s := by
  induction h with
  | init np => exact initBC_noDouble np
  | set s pores k vals mode _ ih => exact setBC_noDouble s pores k vals mode ih
  | remove s pores kinds _ ih => exact removeBC_noDouble s pores kinds ih
  | reset s b _ ih => exact resetBC_noDouble s b ih

/-- Witness for C3: after setting a value BC on pore 0 of a fresh two-pore
store, pore 0 does not hold both kinds. -/
theorem C3_noDouble_invariant_witness :
    ¬((((setBC (initBC 2) [0] .value [1] .merge).state.val.getD 0 none).isSome = true)
      ∧ (((setBC (initBC 2) [0] .value [1] .merge).state.rat.getD 0 none).isSome = true)) :=
  C3_noDouble_invariant (setBC (initBC 2) [0] .value [1] .merge).state
    (ReachableBC.set (initBC 2) [0] .value [1] .merge (ReachableBC.init 2)) 0

/-! ## C4, C6, C7: BC store operations and settings validation -/

/-- C4 (code bug): in merge mode with a per-pore rates vector `[3, 4]` on pores
`[0, 1]` where pore 0 already carries a value BC, `_set_BC` logs the skip-list
warning naming pore 0 but then raises a numpy shape-mismatch error on the
write (`self["pore.bc_rate"][pores] = values` with 1 surviving pore and 2
values) instead of writing pore 1's rate: no BC is written at all. -/
theorem C4_merge_vector_conflict_raises :
    (setBC (setBC (initBC 2) [0] .value [1] .merge).state [0, 1] .rate [3, 4]
      .merge).raised = true ∧
    (setBC (setBC (initBC 2) [0] .value [1] .merge).state [0, 1] .rate [3, 4]
      .merge).skipped = [0] ∧
    (setBC (setBC (initBC 2) [0] .value [1] .merge).state [0, 1] .rate [3, 4]
      .merge).state = (setBC (initBC 2) [0] .value [1] .merge).state := by
  refine ⟨rfl, rfl, rfl⟩

/-- C6 (code bug): `_validate_settings` compares the settings against `None`,
but the unset class-body defaults of `GenericTransportSettings` are empty
strings, so on a default-configured algorithm the validation in `run` passes
instead of failing fast with an incomplete-configuration error. -/
theorem C6_validate_settings_passes_at_defaults :
    validate_settings defaultTransportSettings = Except.ok () ∧
    defaultTransportSettings.quantity = some "" ∧
    defaultTransportSettings.conductance = some "" :=
  ⟨rfl, rfl, rfl⟩

/-- C7: in overwrite mode (on any call passing the size validation, which the
source performs before clearing anything) `_set_BC` first clears every BC of
the targeted kind on all pores and none of the opposite kind, and then behaves
exactly like merge mode on the cleared store — in particular the given pores
still carrying the opposite kind are excluded from the write as in merge
mode. -/
theorem C7_overwrite_clears_then_merges (s : BCState) (pores : List Nat)
    (k : BCKind) (vals : List ℚ)
    (hsize : ¬(vals.length > 1 ∧ vals.length ≠ pores.length)) :
    setBC s pores k vals .overwrite
      = setBC (clearKind s k) pores k vals .merge ∧
    (setBC s pores k vals .overwrite).state.arr k.other = s.arr k.other := by
  have h1 : setBC s pores k vals .overwrite
      = setBCwrite (clearKind s k) pores k vals := by
    simp [setBC, hsize]
  have h2 : setBC (clearKind s k) pores k vals .merge
      = setBCwrite (clearKind s k) pores k vals := by
    simp [setBC, hsize]
  refine ⟨h1.trans h2.symm, ?_⟩
  rw [h1]
  unfold setBCwrite
  split
  · rw [arr_setArr_other, clearKind_arr_other]
  · split
    · rw [arr_setArr_other, clearKind_arr_other]
    · exact clearKind_arr_other s k

/-- Witness for C7: overwriting the rate BCs with a scalar on a store holding
a value BC on pore 0 and a rate BC on pore 1. -/
theorem C7_overwrite_clears_then_merges_witness :
    setBC ⟨[some 1, none], [none, some 4]⟩ [0] .rate [7] .overwrite
      = setBC (clearKind ⟨[some 1, none], [none, some 4]⟩ .rate) [0] .rate [7]
          .merge ∧
    (setBC ⟨[some 1, none], [none, some 4]⟩ [0] .rate [7] .overwrite).state.arr
        BCKind.rate.other
      = BCState.arr ⟨[some 1, none], [none, some 4]⟩ BCKind.rate.other :=
  C7_overwrite_clears_then_merges ⟨[some 1, none], [none, some 4]⟩ [0] .rate [7]
    (by decide)

/-! ## C5, C8, C10: the rate evaluator -/

/-- C8: the argument validation of `rate` rejects exactly the calls where
pores and throats are both non-empty or both empty; with exactly one of the
two non-empty no argument error is raised. -/
theorem C8_rate_argument_check (es : List Edge) (x : Nat → ℚ)
    (pores throats : List Nat) (mode : RateMode) :
    exceptOk (rate es x pores throats mode) = true
      ↔ ((pores ≠ [] ∧ throats = []) ∨ (pores = [] ∧ throats ≠ [])) := by
  unfold rate
  by_cases hp : pores = [] <;> by_cases ht : throats = [] <;>
    simp [hp, ht, exceptOk]

/-- The claim's per-edge flux: conductance times the solution drop from the
edge's "from" endpoint to its "to" endpoint. -/
def specFlux (x : Nat → ℚ) (e : Edge) : ℚ :=
  e.2 * (x e.1.1 - x e.1.2)

/-- The claim's per-node balance: scatter-add of the from→to flux with sign
`+1` at the from endpoint and `-1` at the to endpoint. -/
def specQp (es : List Edge) (x : Nat → ℚ) (i : Nat) : ℚ :=
  (es.map (fun e =>
    ((if e.1.1 = i then (1 : ℚ) else 0) - (if e.1.2 = i then (1 : ℚ) else 0))
      * specFlux x e)).sum

theorem poreQp_eq_specQp (es : List Edge) (x : Nat → ℚ) (i : Nat) :
    poreQp es x i = specQp es x i := by
  unfold poreQp specQp
  refine congrArg List.sum (congrArg (fun f => List.map f es) (funext fun e => ?_))
  unfold edgeQt specFlux
  by_cases h1 : e.1.1 = i <;> by_cases h2 : e.1.2 = i <;>
    simp [h1, h2] <;> ring

/-- C5: a `rate` call over pores returns the out-flow-positive balances
obtained by scatter-adding the per-edge from→to flux with sign `+1` at the
edge's from endpoint and `-1` at its to endpoint (the conductance having been
broadcast to both edge directions), summed over the requested pores for
`mode = group` and kept per-pore otherwise. -/
theorem C5_rate_pores (es : List Edge) (x : Nat → ℚ) (pores : List Nat)
    (mode : RateMode) (h : pores ≠ []) :
    rate es x pores [] mode
      = .ok (match mode with
          | .group => [(pores.map (specQp es x)).sum]
          | .single => pores.map (specQp es x)) := by
  unfold rate
  rw [if_neg (by simp), if_neg (by simp [h]), if_neg (by simp)]
  rw [show pores.map (poreQp es x) = pores.map (specQp es x) from
    congrArg (fun f => List.map f pores) (funext fun i => poreQp_eq_specQp es x i)]

/-- Witness for C5 on the 2-node, 1-edge network with conductance 2 and
solution (10, 0). -/
theorem C5_rate_pores_witness :
    rate [((0, 1), 2)] (fun i => if i = 0 then 10 else 0) [0, 1] [] .single
      = .ok ([0, 1].map (specQp [((0, 1), 2)] (fun i => if i = 0 then 10 else 0))) :=
  C5_rate_pores [((0, 1), 2)] (fun i => if i = 0 then 10 else 0) [0, 1] .single
    (by decide)

/-- C10: a successful `rate` call returns an array of dimension at least one
(`np.array(R, ndmin=1)`), of length 1 for `mode = group` and of length equal
to the number of requested pores (or throats) for `mode = single`. -/
theorem C10_rate_result_shape (es : List Edge) (x : Nat → ℚ)
    (pores throats : List Nat) (mode : RateMode) (R : List ℚ)
    (h : rate es x pores throats mode = .ok R) :
    1 ≤ R.length ∧
    (mode = .group → R.length = 1) ∧
    (mode = .single → R.length
      = if throats = [] then pores.length else throats.length) := by
  cases mode with
  | group =>
    unfold rate at h
    by_cases hp : pores = [] <;> by_cases ht : throats = [] <;>
      simp [hp, ht] at h
    · rw [← h]
      exact ⟨by simp, fun _ => by simp, fun hc => absurd hc (by decide)⟩
    · rw [← h]
      exact ⟨by simp, fun _ => by simp, fun hc => absurd hc (by decide)⟩
  | single =>
    unfold rate at h
    by_cases hp : pores = [] <;> by_cases ht : throats = [] <;>
      simp [hp, ht] at h
    · rw [← h]
      refine ⟨?_, fun hc => absurd hc (by decide), fun _ => ?_⟩
      · rw [List.length_map]
        exact Nat.one_le_iff_ne_zero.mpr
          (fun hz => ht (List.eq_nil_of_length_eq_zero hz))
      · simp [ht]
    · rw [← h]
      refine ⟨?_, fun hc => absurd hc (by decide), fun _ => ?_⟩
      · rw [List.length_map]
        exact Nat.one_le_iff_ne_zero.mpr
          (fun hz => hp (List.eq_nil_of_length_eq_zero hz))
      · simp [ht]

/-- Witness for C10 on an edgeless network with one requested pore in group
mode. -/
theorem C10_rate_result_shape_witness :
    1 ≤ ([(0 : ℚ)].length) ∧
    (RateMode.group = RateMode.group → [(0 : ℚ)].length = 1) ∧
    (RateMode.group = RateMode.single → [(0 : ℚ)].length
      = if ([] : List Nat) = [] then [5].length else ([] : List Nat).length) :=
  C10_rate_result_shape [] (fun _ => 0) [5] [] .group [0]
    (by simp [rate, poreQp])

end OpenPNM
